import Mathlib

/-!
Verification of the pathable library (p1c2u/pathable): a shallow embedding of
the segment parser (pathable/parsers.py), the path value (pathable/paths.py)
and the lookup accessor with its LRU read cache (pathable/accessors.py),
together with theorems settling the specified properties.

Python strings are modelled as lists of characters (the separator is a single
character, per the spec), Python integers as `Int`, raised exceptions as
`Except` errors.
-/

set_option maxHeartbeats 1000000

namespace Pathable

/-- A path segment (Python `LookupKey = Union[str, int]`). -/
inductive PathPart where
  | str (s : List Char)
  | int (n : Int)
deriving DecidableEq, Hashable, Repr

/-- An in-memory lookup node (`LookupNode`): a mapping, a list, or a
(non-subscriptable) scalar. Mappings are association lists in insertion
order; scalars are modelled by integers (which support none of
`__contains__`/`__getitem__`/`__len__`, hence are not `Subscriptable`). -/
inductive LNode where
  | mapping (entries : List (PathPart × LNode))
  | list (items : List LNode)
  | scalar (v : Int)

/-- Python dict lookup `node[part]` on a mapping: first entry with an equal
key (keys are unique in a dict, so first-match is exact). -/
def mapFind : List (PathPart × LNode) → PathPart → Option LNode
  | [], _ => none
  | (k, v) :: rest, key => if k = key then some v else mapFind rest key

/-- Python list indexing `items[i]`, including negative indices. -/
def listIndex (items : List LNode) (i : Int) : Option LNode :=
  if 0 ≤ i then items.get? i.toNat
  else if 0 ≤ (items.length : Int) + i then items.get? ((items.length : Int) + i).toNat
  else none

/-- `SubscriptableAccessor._get_subnode(node, part)`: if `node` is not
`Subscriptable`, raise `KeyError(part)`; otherwise `node[part]`, converting
`KeyError`/`IndexError`/`TypeError` into `KeyError(part)`.
A mapping misses when the key is absent; a list raises `IndexError` when the
integer index is out of range and `TypeError` for a string index; a scalar is
not subscriptable. -/
def getSubnode (node : LNode) (part : PathPart) : Except PathPart LNode :=
  match node with
  | .mapping entries =>
    match mapFind entries part with
    | some v => Except.ok v
    | none => Except.error part
  | .list items =>
    match part with
    | .int i =>
      match listIndex items i with
      | some v => Except.ok v
      | none => Except.error part
    | .str _ => Except.error part
  | .scalar _ => Except.error part

/-- `NodeAccessor._get_node(node, parts)`: step into a child once per
segment, left to right; the first failing step raises. -/
def getNode (node : LNode) : List PathPart → Except PathPart LNode
  | [] => Except.ok node
  | p :: rest =>
    match getSubnode node p with
    | Except.ok c => getNode c rest
    | Except.error e => Except.error e

/-- `LookupAccessor._read_node` is the identity (lookup values are the nodes
themselves). -/
def readNode (node : LNode) : LNode := node

/-- `NodeAccessor.read(parts)`: `_get_node` then `_read_node`. -/
def readPlain (root : LNode) (parts : List PathPart) : Except PathPart LNode :=
  (getNode root parts).map readNode

/-- `NodeAccessor.validate(parts)`: traversal only. -/
def validate (root : LNode) (parts : List PathPart) : Except PathPart Unit :=
  (getNode root parts).map (fun _ => Unit.unit)

theorem getSubnode_error_eq (node : LNode) (part e : PathPart)
    (h : getSubnode node part = Except.error e) : e = part := by
  cases node with
  | mapping entries =>
    simp only [getSubnode] at h
    cases hf : mapFind entries part <;> rw [hf] at h <;> simp_all
  | list items =>
    cases part with
    | str s => simp [getSubnode] at h; exact h.symm
    | int i =>
      simp only [getSubnode] at h
      cases hf : listIndex items i <;> rw [hf] at h <;> simp_all
  | scalar v => simp [getSubnode] at h; exact h.symm

theorem getNode_error_first (root : LNode) (parts : List PathPart) (s : PathPart)
    (h : getNode root parts = Except.error s) :
    ∃ i : Nat, ∃ hi : i < parts.length,
      parts.get ⟨i, hi⟩ = s ∧
      ∃ n, getNode root (parts.take i) = Except.ok n ∧
        getSubnode n s = Except.error s := by
  induction parts generalizing root with
  | nil => simp [getNode] at h
  | cons p rest ih =>
    rw [getNode] at h
    cases hsub : getSubnode root p with
    | error e =>
      rw [hsub] at h
      have he : e = s := by simpa using h
      have hp : e = p := getSubnode_error_eq root p e hsub
      subst he; subst hp
      exact ⟨0, by simp, by simp, root, by simp [getNode], hsub⟩
    | ok c =>
      rw [hsub] at h
      obtain ⟨i, hi, hget, n, hnode, hstep⟩ := ih c h
      refine ⟨i + 1, by simpa using Nat.succ_lt_succ hi, ?_, n, ?_, hstep⟩
      · simpa using hget
      · simpa [getNode, hsub] using hnode

/-- C1: traversal (`_get_node`, used by resolve/read/validate) walks the
segments left to right, and a failure raises a KeyError carrying the first
segment that could not be resolved: there is a position `i` such that the
prefix before `i` resolves fine, the step at `i` fails, and the raised error
is exactly that segment (not the last segment of the whole path); `read` and
`validate` propagate the same error. -/
theorem c1_first_failing_segment (root : LNode) (parts : List PathPart) (s : PathPart)
    (h : getNode root parts = Except.error s) :
    (∃ i : Nat, ∃ hi : i < parts.length,
      parts.get ⟨i, hi⟩ = s ∧
      ∃ n, getNode root (parts.take i) = Except.ok n ∧
        getSubnode n s = Except.error s)
    ∧ readPlain root parts = Except.error s
    ∧ validate root parts = Except.error s := by
  refine ⟨getNode_error_first root parts s h, ?_, ?_⟩
  · unfold readPlain; rw [h]; rfl
  · unfold validate; rw [h]; rfl

/-- Witness for C1: the two-segment path `["x", "y"]` on the root
`{"a": {}}` fails at the first segment `"x"`, not at the last one. -/
theorem c1_first_failing_segment_witness :
    (∃ i : Nat, ∃ hi : i < [PathPart.str ['x'], PathPart.str ['y']].length,
      [PathPart.str ['x'], PathPart.str ['y']].get ⟨i, hi⟩ = PathPart.str ['x'] ∧
      ∃ n, getNode (LNode.mapping [(PathPart.str ['a'], LNode.mapping [])])
          ([PathPart.str ['x'], PathPart.str ['y']].take i) = Except.ok n ∧
        getSubnode n (PathPart.str ['x']) = Except.error (PathPart.str ['x']))
    ∧ readPlain (LNode.mapping [(PathPart.str ['a'], LNode.mapping [])])
        [PathPart.str ['x'], PathPart.str ['y']] = Except.error (PathPart.str ['x'])
    ∧ validate (LNode.mapping [(PathPart.str ['a'], LNode.mapping [])])
        [PathPart.str ['x'], PathPart.str ['y']] = Except.error (PathPart.str ['x']) :=
  c1_first_failing_segment
    (LNode.mapping [(PathPart.str ['a'], LNode.mapping [])])
    [PathPart.str ['x'], PathPart.str ['y']] (PathPart.str ['x'])
    (by simp [getNode, getSubnode, mapFind])

/-- `LookupAccessor.contains(parts, key)`: resolve the parent (returning
`False` on `KeyError`), then check membership directly: key present for a
mapping, integer index within `0 ≤ key < len` for a list, `False` for
anything else. Never raises. -/
def lookupContains (root : LNode) (parts : List PathPart) (key : PathPart) : Bool :=
  match getNode root parts with
  | Except.error _ => false
  | Except.ok node =>
    match node with
    | .mapping entries => (mapFind entries key).isSome
    | .list items =>
      match key with
      | .int i => decide (0 ≤ i ∧ i < (items.length : Int))
      | .str _ => false
    | .scalar _ => false

/-- `NodeAccessor.contains(parts, key)` (generic default): resolve the
parent, then try a single `_get_subnode` step, converting
`KeyError`/`IndexError`/`TypeError` into `False`. Never raises. (The
`NotImplementedError` fallback is unreachable here since `_get_subnode` is
implemented by `SubscriptableAccessor`.) -/
def genericContains (root : LNode) (parts : List PathPart) (key : PathPart) : Bool :=
  match getNode root parts with
  | Except.error _ => false
  | Except.ok parent =>
    match getSubnode parent key with
    | Except.ok _ => true
    | Except.error _ => false

theorem listIndex_none_not_in_range (items : List LNode) (i : Int)
    (h : listIndex items i = none) : ¬(0 ≤ i ∧ i < (items.length : Int)) := by
  intro ⟨h0, hlt⟩
  rw [listIndex, if_pos h0] at h
  rw [List.get?_eq_none] at h
  omega

/-- C4: the membership checks (`NodeAccessor.contains` and its
`LookupAccessor` override) are boolean-valued and total — they never raise —
and they return `false` both when resolution of the parent path fails and
when the parent resolves but the single-step child lookup fails. -/
theorem c4_contains_never_raises (root : LNode) (parts : List PathPart) (key : PathPart) :
    (∀ s, getNode root parts = Except.error s →
      genericContains root parts key = false ∧ lookupContains root parts key = false)
    ∧ ∀ n, getNode root parts = Except.ok n →
        ∀ s, getSubnode n key = Except.error s →
          genericContains root parts key = false ∧ lookupContains root parts key = false := by
  constructor
  · intro s hs
    exact ⟨by simp [genericContains, hs], by simp [lookupContains, hs]⟩
  · intro n hn s hserr
    constructor
    · simp [genericContains, hn, hserr]
    · cases n with
      | mapping entries =>
        rw [lookupContains, hn]
        rw [getSubnode] at hserr
        cases hf : mapFind entries key <;> rw [hf] at hserr <;> simp_all
      | list items =>
        rw [lookupContains, hn]
        cases key with
        | str t => simp
        | int i =>
          rw [getSubnode] at hserr
          cases hf : listIndex items i with
          | some v => rw [hf] at hserr; simp at hserr
          | none =>
            simpa using listIndex_none_not_in_range items i hf
      | scalar v => simp [lookupContains, hn]

/-- Witness for C4: on root `7` (a scalar), parent resolution of `[0]` fails,
and both membership checks return `false`. -/
theorem c4_contains_never_raises_witness :
    genericContains (LNode.scalar 7) [PathPart.int 0] (PathPart.str ['k']) = false ∧
    lookupContains (LNode.scalar 7) [PathPart.int 0] (PathPart.str ['k']) = false :=
  (c4_contains_never_raises (LNode.scalar 7) [PathPart.int 0] (PathPart.str ['k'])).1
    (PathPart.int 0) rfl

/-- One cache entry: the full segment-sequence key with its cached value. -/
abbrev CacheEntry := List PathPart × LNode

/-- The mutable state of `CachedSubscriptableAccessor`: the enabled flag, the
optional maximum size (`none` = unbounded) and the `OrderedDict` of cached
reads in recency order (head = least recently used, last = most recently
used). -/
structure CacheState where
  enabled : Bool
  maxsize : Option Nat
  cache : List CacheEntry

/-- The cache configuration set up by `__init__` (enabled, maxsize 128,
empty). -/
def initCache : CacheState := ⟨true, some 128, []⟩

/-- Python dict lookup `self._cache[key]` in the OrderedDict. -/
def cacheFind : List CacheEntry → List PathPart → Option LNode
  | [], _ => none
  | (k, v) :: rest, key => if k = key then some v else cacheFind rest key

/-- `OrderedDict.move_to_end(key)`: move the entry for `key` (present with
value `v`) to the most-recently-used end. -/
def moveToEnd (c : List CacheEntry) (key : List PathPart) (v : LNode) : List CacheEntry :=
  c.filter (fun e => decide (e.1 ≠ key)) ++ [(key, v)]

/-- The `while len(self._cache) > maxsize: popitem(last=False)` eviction
loop: repeatedly drop the least-recently-used (front) entry. -/
def evictLRU (m : Nat) (c : List CacheEntry) : List CacheEntry :=
  if h : m < c.length then evictLRU m c.tail else c
termination_by c.length
decreasing_by
  simp only [List.length_tail]
  omega

/-- `CachedSubscriptableAccessor.read(parts)`: pass through to the plain
read when caching is disabled or maxsize is 0; otherwise serve from the
cache (marking the entry most recently used) on a hit, or resolve, insert at
the MRU end, and evict down to maxsize on a miss (a raised `KeyError`
propagates, leaving the cache unchanged). Returns the result, the new cache
state, and the number of backing-store resolutions (`_get_node` calls)
performed. -/
def cachedRead (st : CacheState) (root : LNode) (parts : List PathPart) :
    Except PathPart LNode × CacheState × Nat :=
  if st.enabled = false ∨ st.maxsize = some 0 then
    ((getNode root parts).map readNode, st, 1)
  else
    match cacheFind st.cache parts with
    | some v => (Except.ok v, { st with cache := moveToEnd st.cache parts v }, 0)
    | none =>
      match getNode root parts with
      | Except.error e => (Except.error e, st, 1)
      | Except.ok node =>
        let value := readNode node
        let inserted := st.cache ++ [(parts, value)]
        let evicted :=
          match st.maxsize with
          | none => inserted
          | some m => evictLRU m inserted
        (Except.ok value, { st with cache := evicted }, 1)

/-- `clear_cache()`. -/
def clear_cache (st : CacheState) : CacheState := { st with cache := [] }

/-- `disable_cache()`: clear the flag and the cache. -/
def disable_cache (st : CacheState) : CacheState :=
  { st with enabled := false, cache := [] }

/-- `enable_cache(maxsize)`: set the flag and maxsize, clear the cache. -/
def enable_cache (st : CacheState) (maxsize : Option Nat) : CacheState :=
  { st with enabled := true, maxsize := maxsize, cache := [] }

theorem evictLRU_le (m : Nat) (c : List CacheEntry) (h : c.length ≤ m) :
    evictLRU m c = c := by
  rw [evictLRU]
  simp [Nat.not_lt.mpr h]

theorem evictLRU_step (m : Nat) (c : List CacheEntry) (h : m < c.length) :
    evictLRU m c = evictLRU m c.tail := by
  rw [evictLRU]
  simp [h]

theorem evictLRU_length_le (m : Nat) (c : List CacheEntry) :
    (evictLRU m c).length ≤ m := by
  have key : ∀ fuel : Nat, ∀ c : List CacheEntry, c.length ≤ fuel →
      (evictLRU m c).length ≤ m := by
    intro fuel
    induction fuel with
    | zero =>
      intro c hc
      have hc0 : c.length = 0 := Nat.le_zero.mp hc
      rw [evictLRU_le m c (by omega)]
      omega
    | succ n ih =>
      intro c hc
      by_cases hlt : m < c.length
      · rw [evictLRU_step m c hlt]
        apply ih
        simp only [List.length_tail]
        omega
      · rw [evictLRU_le m c (Nat.not_lt.mp hlt)]
        omega
  exact key c.length c le_rfl

theorem cacheFind_mem (c : List CacheEntry) (key : List PathPart) (v : LNode)
    (h : cacheFind c key = some v) :
    (c.filter (fun e => decide (e.1 ≠ key))).length < c.length := by
  induction c with
  | nil => simp [cacheFind] at h
  | cons e rest ih =>
    obtain ⟨k, w⟩ := e
    rw [cacheFind] at h
    have hfl := List.length_filter_le (fun e : CacheEntry => decide (e.1 ≠ key)) rest
    by_cases hk : k = key
    · have hdec : (decide (((k, w) : CacheEntry).1 ≠ key)) = false := by
        simp [hk]
      rw [List.filter_cons, hdec]
      simp only [Bool.false_eq_true, if_false, List.length_cons]
      omega
    · rw [if_neg hk] at h
      have hih := ih h
      have hdec : (decide (((k, w) : CacheEntry).1 ≠ key)) = true := by
        simp [hk]
      rw [List.filter_cons, hdec]
      simp only [if_true, List.length_cons]
      omega

/-- C2: after every `read`, the cache size never exceeds a configured
maximum; when the cache is exactly full and a new key is read, the
least-recently-used (front) entry is evicted; and with maxsize configured as
0 the read is a pass-through that leaves the state untouched. -/
theorem c2_cache_bound_lru (st : CacheState) (root : LNode) (parts : List PathPart)
    (m : Nat) (hm : st.maxsize = some m) (hlen : st.cache.length ≤ m) :
    ((cachedRead st root parts).2.1.cache.length ≤ m)
    ∧ (m = 0 → (cachedRead st root parts).2.1 = st)
    ∧ (0 < m → st.enabled = true → st.cache.length = m →
        cacheFind st.cache parts = none →
        ∀ v, getNode root parts = Except.ok v →
          (cachedRead st root parts).2.1.cache
            = st.cache.tail ++ [(parts, readNode v)]) := by
  by_cases hcond : st.enabled = false ∨ st.maxsize = some 0
  · rw [cachedRead, if_pos hcond]
    refine ⟨hlen, fun _ => rfl, fun hm0 hen hfull hfind v hv => ?_⟩
    rcases hcond with hdis | hzero
    · rw [hen] at hdis; exact absurd hdis (by simp)
    · rw [hm] at hzero
      simp at hzero
      omega
  · have hm0 : m ≠ 0 := by
      intro h0
      subst h0
      exact hcond (Or.inr hm)
    cases hfind : cacheFind st.cache parts with
    | some v =>
      simp only [cachedRead, if_neg hcond, hfind]
      refine ⟨?_, fun h0 => absurd h0 hm0, fun _ _ _ hnone _ _ => absurd hnone (by simp)⟩
      have hlt := cacheFind_mem st.cache parts v hfind
      simp only [moveToEnd, List.length_append, List.length_cons, List.length_nil]
      omega
    | none =>
      cases hget : getNode root parts with
      | error e =>
        simp only [cachedRead, if_neg hcond, hfind, hget]
        exact ⟨hlen, fun h0 => absurd h0 hm0,
          fun _ _ _ _ v hv => absurd hv (by simp)⟩
      | ok node =>
        have hcond2 : ¬(st.enabled = false ∨ (some m : Option Nat) = some 0) := by
          rw [← hm]; exact hcond
        simp only [cachedRead, hfind, hget, hm, if_neg hcond2]
        refine ⟨evictLRU_length_le m _, fun h0 => absurd h0 hm0,
          fun hpos hen hfull hnone v hv => ?_⟩
        have hveq : node = v := by injection hv
        subst hveq
        have hne : st.cache ≠ [] := by
          intro hnil
          rw [hnil] at hfull
          simp at hfull
          omega
        obtain ⟨a, l, hal⟩ := List.exists_cons_of_ne_nil hne
        have hlen1 : m < (st.cache ++ [(parts, readNode node)]).length := by
          simp [hfull]
        rw [evictLRU_step m _ hlen1]
        have htail : (st.cache ++ [(parts, readNode node)]).tail
            = st.cache.tail ++ [(parts, readNode node)] := by
          rw [hal]; rfl
        rw [htail]
        apply evictLRU_le
        simp only [List.length_append, List.length_cons, List.length_nil, List.length_tail]
        omega

/-- Witness for C2: a full one-entry cache (maxsize 1) reading a fresh key
keeps size 1, and the old entry is evicted. -/
theorem c2_cache_bound_lru_witness :
    ((cachedRead ⟨true, some 1, [([PathPart.str ['a']], LNode.scalar 1)]⟩
        (LNode.mapping [(PathPart.str ['b'], LNode.scalar 2)])
        [PathPart.str ['b']]).2.1.cache.length ≤ 1)
    ∧ (1 = 0 → (cachedRead ⟨true, some 1, [([PathPart.str ['a']], LNode.scalar 1)]⟩
        (LNode.mapping [(PathPart.str ['b'], LNode.scalar 2)])
        [PathPart.str ['b']]).2.1 = ⟨true, some 1, [([PathPart.str ['a']], LNode.scalar 1)]⟩)
    ∧ (0 < 1 → (true : Bool) = true →
        [([PathPart.str ['a']], LNode.scalar 1)].length = 1 →
        cacheFind [([PathPart.str ['a']], LNode.scalar 1)] [PathPart.str ['b']] = none →
        ∀ v, getNode (LNode.mapping [(PathPart.str ['b'], LNode.scalar 2)])
            [PathPart.str ['b']] = Except.ok v →
          (cachedRead ⟨true, some 1, [([PathPart.str ['a']], LNode.scalar 1)]⟩
            (LNode.mapping [(PathPart.str ['b'], LNode.scalar 2)])
            [PathPart.str ['b']]).2.1.cache
            = [([PathPart.str ['a']], LNode.scalar 1)].tail
              ++ [([PathPart.str ['b']], readNode v)]) :=
  c2_cache_bound_lru ⟨true, some 1, [([PathPart.str ['a']], LNode.scalar 1)]⟩
    (LNode.mapping [(PathPart.str ['b'], LNode.scalar 2)])
    [PathPart.str ['b']] 1 rfl (by simp)

/-- `N` consecutive `read_value()` calls on the same path: iterate
`cachedRead`, threading the cache state and summing the backing-store
resolution counts. -/
def readN (root : LNode) (parts : List PathPart) : Nat → CacheState → CacheState × Nat
  | 0, st => (st, 0)
  | Nat.succ n, st =>
    let r := cachedRead st root parts
    let rest := readN root parts n r.2.1
    (rest.1, r.2.2 + rest.2)

theorem cachedRead_hit_fixed (st : CacheState) (root : LNode) (parts : List PathPart)
    (v : LNode) (hen : st.enabled = true) (hm0 : st.maxsize ≠ some 0)
    (hc : st.cache = [(parts, v)]) :
    cachedRead st root parts = (Except.ok v, st, 0) := by
  have hcond : ¬(st.enabled = false ∨ st.maxsize = some 0) := by
    intro h
    rcases h with h | h
    · rw [hen] at h; simp at h
    · exact hm0 h
  have hfind : cacheFind st.cache parts = some v := by
    rw [hc, cacheFind, if_pos rfl]
  simp only [cachedRead, if_neg hcond, hfind]
  have hmove : moveToEnd st.cache parts v = st.cache := by
    rw [hc, moveToEnd]
    simp [List.filter_cons]
  rw [hmove]

theorem readN_steady (root : LNode) (parts : List PathPart) (v : LNode) (n : Nat)
    (st : CacheState) (hen : st.enabled = true) (hm0 : st.maxsize ≠ some 0)
    (hc : st.cache = [(parts, v)]) :
    readN root parts n st = (st, 0) := by
  induction n with
  | zero => rfl
  | succ k ih =>
    rw [readN]
    simp only [cachedRead_hit_fixed st root parts v hen hm0 hc, ih]

theorem readN_disabled (root : LNode) (parts : List PathPart) (n : Nat)
    (st : CacheState) (hdis : st.enabled = false) :
    readN root parts n st = (st, n) := by
  induction n with
  | zero => rfl
  | succ k ih =>
    rw [readN]
    have hred : cachedRead st root parts
        = ((getNode root parts).map readNode, st, 1) := by
      rw [cachedRead, if_pos (Or.inl hdis)]
    simp [hred, ih, Nat.add_comm]

/-- C3: for a segment sequence that resolves, `N ≥ 1` consecutive reads on the
same accessor perform exactly one backing-store resolution when the cache is
enabled (starting empty, with capacity for at least one entry), and exactly
`N` resolutions when the cache is disabled. -/
theorem c3_read_access_counts (root : LNode) (parts : List PathPart) (v : LNode)
    (N : Nat) (hok : getNode root parts = Except.ok v) (hN : 1 ≤ N) :
    (∀ st : CacheState, st.enabled = true → st.cache = [] →
      (st.maxsize = none ∨ ∃ m, st.maxsize = some m ∧ 1 ≤ m) →
      (readN root parts N st).2 = 1)
    ∧ (∀ st : CacheState, st.enabled = false → (readN root parts N st).2 = N) := by
  constructor
  · intro st hen hempty hcap
    obtain ⟨k, hk⟩ : ∃ k, N = k + 1 := ⟨N - 1, by omega⟩
    subst hk
    have hm0 : st.maxsize ≠ some 0 := by
      rcases hcap with h | ⟨m, hm, hm1⟩
      · rw [h]; simp
      · rw [hm]; intro hcontra; injection hcontra with h2; omega
    have hcond : ¬(st.enabled = false ∨ st.maxsize = some 0) := by
      intro h
      rcases h with h | h
      · rw [hen] at h; simp at h
      · exact hm0 h
    have hfind : cacheFind st.cache parts = none := by rw [hempty]; rfl
    have hfirst : cachedRead st root parts
        = (Except.ok (readNode v), { st with cache := [(parts, readNode v)] }, 1) := by
      rcases hcap with h | ⟨m, hm, hm1⟩
      · simp only [cachedRead, hok, hempty, h, List.nil_append]
        simp [hen, cacheFind]
      · have hm0m : m ≠ 0 := by omega
        simp only [cachedRead, hok, hempty, hm, List.nil_append]
        rw [evictLRU_le m ([(parts, readNode v)]) (by simpa using hm1)]
        simp [hen, cacheFind, hm0m]
    rw [readN]
    simp only [hfirst]
    rw [readN_steady root parts (readNode v) k
      { st with cache := [(parts, readNode v)] } hen hm0 rfl]
    rfl
  · intro st hdis
    rw [readN_disabled root parts N st hdis]

/-- Witness for C3: on `{"a": 5}` reading path `["a"]` twice: one resolution
with the cache enabled from empty, two with it disabled. -/
theorem c3_read_access_counts_witness :
    (readN (LNode.mapping [(PathPart.str ['a'], LNode.scalar 5)]) [PathPart.str ['a']]
      2 ⟨true, some 128, []⟩).2 = 1
    ∧ (readN (LNode.mapping [(PathPart.str ['a'], LNode.scalar 5)]) [PathPart.str ['a']]
      2 ⟨false, some 128, []⟩).2 = 2 :=
  ⟨(c3_read_access_counts (LNode.mapping [(PathPart.str ['a'], LNode.scalar 5)])
      [PathPart.str ['a']] (LNode.scalar 5) 2 rfl (by omega)).1
      ⟨true, some 128, []⟩ rfl rfl (Or.inr ⟨128, rfl, by omega⟩),
    (c3_read_access_counts (LNode.mapping [(PathPart.str ['a'], LNode.scalar 5)])
      [PathPart.str ['a']] (LNode.scalar 5) 2 rfl (by omega)).2
      ⟨false, some 128, []⟩ rfl⟩

/-- C10: `enable_cache` and `disable_cache` always empty the cache, and the
first read after either call performs a backing-store resolution (count 1)
for every segment sequence, even one whose value was cached before the
call. -/
theorem c10_enable_disable_clear (st : CacheState) (root : LNode)
    (parts : List PathPart) (maxsize : Option Nat) :
    (enable_cache st maxsize).cache = []
    ∧ (disable_cache st).cache = []
    ∧ (cachedRead (enable_cache st maxsize) root parts).2.2 = 1
    ∧ (cachedRead (disable_cache st) root parts).2.2 = 1 := by
  refine ⟨rfl, rfl, ?_, ?_⟩
  · by_cases hz : maxsize = some 0
    · rw [cachedRead, if_pos (Or.inr (by rw [enable_cache]; exact hz))]
    · have hcond : ¬((enable_cache st maxsize).enabled = false
          ∨ (enable_cache st maxsize).maxsize = some 0) := by
        intro h
        rcases h with h | h
        · rw [enable_cache] at h; simp at h
        · rw [enable_cache] at h; exact hz h
      have hfind : cacheFind (enable_cache st maxsize).cache parts = none := rfl
      simp only [cachedRead, if_neg hcond, hfind]
      cases hget : getNode root parts <;> simp
  · have hd : (disable_cache st).enabled = false := rfl
    rw [cachedRead, if_pos (Or.inl hd)]

/-! Segment parser (pathable/parsers.py) and path value (pathable/paths.py). -/

/-- Python exception classes raised by path construction and navigation. -/
inductive PyErr where
  | typeError
  | valueError
deriving DecidableEq, Repr

/-- A raw part handed to `parse_parts`: any hashable Python value — a text
string, an integer, `None`, or some other hashable object (e.g. a tuple). -/
inductive RawPart where
  | str (s : List Char)
  | int (n : Int)
  | none
  | other
deriving DecidableEq, Repr

/-- Python `part.split(sep)` for a single-character separator. -/
def splitOnSep (sep : Char) : List Char → List (List Char)
  | [] => [[]]
  | c :: rest =>
    let r := splitOnSep sep rest
    if c = sep then [] :: r
    else
      match r with
      | [] => [[c]]
      | t :: ts => (c :: t) :: ts

/-- The sub-token filter `if x and x != "."`: keep non-empty tokens other
than the literal dot. -/
def keepToken (x : List Char) : Bool :=
  decide (x ≠ [] ∧ x ≠ ['.'])

/-- The body of `parse_parts`: iterate over the (already reversed) parts,
appending into `parsed`: `None` is skipped, an integer is appended, a string
containing the separator contributes its kept sub-tokens in reversed order,
any other string is appended when kept, and any other part raises
`TypeError`. -/
def parsePartsLoop (sep : Char) :
    List RawPart → List PathPart → Except PyErr (List PathPart)
  | [], parsed => Except.ok parsed
  | p :: rest, parsed =>
    match p with
    | .none => parsePartsLoop sep rest parsed
    | .int n => parsePartsLoop sep rest (parsed ++ [PathPart.int n])
    | .str s =>
      if sep ∈ s then
        parsePartsLoop sep rest
          (parsed ++ ((splitOnSep sep s).reverse.filter keepToken).map PathPart.str)
      else
        if keepToken s then parsePartsLoop sep rest (parsed ++ [PathPart.str s])
        else parsePartsLoop sep rest parsed
    | .other => Except.error PyErr.typeError

/-- `parse_parts(parts, sep)`: run the loop over `reversed(parts)`, then
reverse the accumulated result. -/
def parse_parts (parts : List RawPart) (sep : Char) : Except PyErr (List PathPart) :=
  (parsePartsLoop sep parts.reverse []).map List.reverse

/-- A constructor argument of `BasePath`: another path (its parts are
spliced in), ASCII-decodable bytes, an `os.PathLike` object (carrying the
string `os.fspath` returns for it, after ASCII-decoding when it is bytes),
a text string, an integer, `None`, some other hashable object, or an
unhashable object. -/
inductive Arg where
  | path (p : List PathPart)
  | bytes (s : List Char)
  | pathlike (s : List Char)
  | str (s : List Char)
  | int (n : Int)
  | none
  | hashableOther
  | unhashable
deriving DecidableEq, Repr

/-- A parsed part fed back in as a raw part (splicing a path's parts into
the collected list). -/
def toRaw : PathPart → RawPart
  | .str s => RawPart.str s
  | .int n => RawPart.int n

/-- The argument-collection loop of `BasePath._parse_args`: splice paths,
decode bytes to text, convert an `os.PathLike` argument with `os.fspath`
(ASCII-decoding a bytes result) so it is kept as its path string, keep
strings, integers and any other hashable value (including `None`), and
raise `TypeError` on an unhashable argument. -/
def collectParts : List Arg → Except PyErr (List RawPart)
  | [] => Except.ok []
  | a :: rest =>
    match a with
    | .path p => (collectParts rest).map (fun t => p.map toRaw ++ t)
    | .bytes s => (collectParts rest).map (fun t => RawPart.str s :: t)
    | .pathlike s => (collectParts rest).map (fun t => RawPart.str s :: t)
    | .str s => (collectParts rest).map (fun t => RawPart.str s :: t)
    | .int n => (collectParts rest).map (fun t => RawPart.int n :: t)
    | .none => (collectParts rest).map (fun t => RawPart.none :: t)
    | .hashableOther => (collectParts rest).map (fun t => RawPart.other :: t)
    | .unhashable => Except.error PyErr.typeError

/-- `BasePath._parse_args(args, sep)`: collect the raw parts, then
`parse_parts`. -/
def parse_args (args : List Arg) (sep : Char) : Except PyErr (List PathPart) :=
  collectParts args >>= fun ps => parse_parts ps sep

/-- What one `parse_parts` iteration appends for one raw part. -/
def chunkOf (sep : Char) : RawPart → List PathPart
  | .none => []
  | .int n => [PathPart.int n]
  | .str s =>
    if sep ∈ s then ((splitOnSep sep s).reverse.filter keepToken).map PathPart.str
    else if keepToken s then [PathPart.str s] else []
  | .other => []

/-- Canonical (spec-order) contribution of one raw part: split on the
separator, keep sub-tokens that survive the filter, in original order;
integers as-is. -/
def canonRaw (sep : Char) : RawPart → List PathPart
  | .none => []
  | .int n => [PathPart.int n]
  | .str s => ((splitOnSep sep s).filter keepToken).map PathPart.str
  | .other => []

def chunksJoin (sep : Char) : List RawPart → List PathPart
  | [] => []
  | p :: rest => chunkOf sep p ++ chunksJoin sep rest

def canonJoin (sep : Char) : List RawPart → List PathPart
  | [] => []
  | p :: rest => canonRaw sep p ++ canonJoin sep rest

/-- No raw part is of the TypeError-raising kind. -/
def NoOther (l : List RawPart) : Prop := ∀ p ∈ l, p ≠ RawPart.other

theorem splitOnSep_not_mem (sep : Char) (s : List Char) :
    ∀ t ∈ splitOnSep sep s, sep ∉ t := by
  induction s with
  | nil => intro t ht; simp [splitOnSep] at ht; simp [ht]
  | cons c rest ih =>
    intro t ht
    rw [splitOnSep] at ht
    by_cases hc : c = sep
    · rw [if_pos hc] at ht
      rcases List.mem_cons.mp ht with ht | ht
      · simp [ht]
      · exact ih t ht
    · rw [if_neg hc] at ht
      cases hr : splitOnSep sep rest with
      | nil => rw [hr] at ht; simp at ht; simp [ht, hc]; exact fun h => hc h.symm
      | cons t0 ts =>
        rw [hr] at ht
        rcases List.mem_cons.mp ht with ht | ht
        · subst ht
          intro hmem
          rcases List.mem_cons.mp hmem with hmem | hmem
          · exact hc hmem.symm
          · exact ih t0 (by rw [hr]; exact List.mem_cons_self t0 ts) hmem
        · exact ih t (by rw [hr]; exact List.mem_cons_of_mem t0 ht)

theorem splitOnSep_no_sep (sep : Char) (s : List Char) (h : sep ∉ s) :
    splitOnSep sep s = [s] := by
  induction s with
  | nil => rfl
  | cons c rest ih =>
    rw [splitOnSep]
    have hc : ¬(c = sep) := fun hceq => h (by rw [hceq]; exact List.mem_cons_self sep rest)
    rw [if_neg hc]
    have hrest : sep ∉ rest := fun hm => h (List.mem_cons_of_mem c hm)
    rw [ih hrest]

theorem parsePartsLoop_ok (sep : Char) (l : List RawPart) (parsed : List PathPart)
    (h : NoOther l) :
    parsePartsLoop sep l parsed = Except.ok (parsed ++ chunksJoin sep l) := by
  induction l generalizing parsed with
  | nil => simp [parsePartsLoop, chunksJoin]
  | cons p rest ih =>
    have hp : p ≠ RawPart.other := h p (List.mem_cons_self p rest)
    have hrest : NoOther rest := fun q hq => h q (List.mem_cons_of_mem p hq)
    cases p with
    | none =>
      rw [parsePartsLoop, ih parsed hrest]
      simp [chunksJoin, chunkOf]
    | int n =>
      rw [parsePartsLoop, ih _ hrest]
      simp [chunksJoin, chunkOf]
    | str s =>
      rw [parsePartsLoop]
      by_cases hsep : sep ∈ s
      · rw [if_pos hsep, ih _ hrest]
        simp [chunksJoin, chunkOf, hsep]
      · rw [if_neg hsep]
        by_cases hkeep : keepToken s = true
        · rw [if_pos hkeep, ih _ hrest]
          simp [chunksJoin, chunkOf, hsep, hkeep]
        · rw [if_neg hkeep, ih _ hrest]
          simp [chunksJoin, chunkOf, hsep, hkeep]
    | other => exact absurd rfl hp

theorem chunkOf_eq_reverse (sep : Char) (p : RawPart) :
    chunkOf sep p = (canonRaw sep p).reverse := by
  cases p with
  | none => rfl
  | int n => rfl
  | other => rfl
  | str s =>
    rw [chunkOf, canonRaw]
    by_cases hsep : sep ∈ s
    · rw [if_pos hsep]
      rw [List.filter_reverse, List.map_reverse]
    · rw [if_neg hsep, splitOnSep_no_sep sep s hsep]
      by_cases hkeep : keepToken s = true
      · rw [if_pos hkeep]
        simp [hkeep]
      · rw [if_neg hkeep]
        simp [hkeep]

theorem chunksJoin_append (sep : Char) (a b : List RawPart) :
    chunksJoin sep (a ++ b) = chunksJoin sep a ++ chunksJoin sep b := by
  induction a with
  | nil => simp [chunksJoin]
  | cons p rest ih => simp [chunksJoin, ih]

theorem chunksJoin_reverse (sep : Char) (l : List RawPart) :
    (chunksJoin sep l.reverse).reverse = canonJoin sep l := by
  induction l with
  | nil => rfl
  | cons p rest ih =>
    rw [List.reverse_cons, chunksJoin_append]
    rw [List.reverse_append]
    rw [ih]
    simp [chunksJoin, chunkOf_eq_reverse, canonJoin]

theorem parse_parts_ok (ps : List RawPart) (sep : Char) (h : NoOther ps) :
    parse_parts ps sep = Except.ok (canonJoin sep ps) := by
  rw [parse_parts, parsePartsLoop_ok sep ps.reverse [] (fun p hp => h p (List.mem_reverse.mp hp))]
  simp [Except.map, chunksJoin_reverse]

/-- Classifier: a text-string or integer constructor argument. -/
def isTextOrInt : Arg → Bool
  | .str _ => true
  | .int _ => true
  | _ => false

/-- Raw part for a text-or-integer argument. -/
def argRaw : Arg → RawPart
  | .str s => RawPart.str s
  | .int n => RawPart.int n
  | _ => RawPart.other

/-- Canonical (spec-order) segments of a list of text-or-integer arguments:
each string split on the separator with empty and "." sub-tokens discarded,
each integer kept as-is in place. -/
def canonArgs (sep : Char) : List Arg → List PathPart
  | [] => []
  | Arg.str s :: rest =>
    ((splitOnSep sep s).filter keepToken).map PathPart.str ++ canonArgs sep rest
  | Arg.int n :: rest => PathPart.int n :: canonArgs sep rest
  | _ :: rest => canonArgs sep rest

theorem collectParts_textint (args : List Arg)
    (h : ∀ a ∈ args, isTextOrInt a = true) :
    collectParts args = Except.ok (args.map argRaw) := by
  induction args with
  | nil => rfl
  | cons a rest ih =>
    have ha : isTextOrInt a = true := h a (List.mem_cons_self a rest)
    have hrest := ih (fun b hb => h b (List.mem_cons_of_mem a hb))
    cases a with
    | str s => rw [collectParts, hrest]; rfl
    | int n => rw [collectParts, hrest]; rfl
    | path p => simp [isTextOrInt] at ha
    | bytes s => simp [isTextOrInt] at ha
    | pathlike s => simp [isTextOrInt] at ha
    | none => simp [isTextOrInt] at ha
    | hashableOther => simp [isTextOrInt] at ha
    | unhashable => simp [isTextOrInt] at ha

theorem canonJoin_map_argRaw (sep : Char) (args : List Arg)
    (h : ∀ a ∈ args, isTextOrInt a = true) :
    canonJoin sep (args.map argRaw) = canonArgs sep args := by
  induction args with
  | nil => rfl
  | cons a rest ih =>
    have ha : isTextOrInt a = true := h a (List.mem_cons_self a rest)
    have hrest := ih (fun b hb => h b (List.mem_cons_of_mem a hb))
    cases a with
    | str s => simp [canonJoin, canonRaw, argRaw, canonArgs, hrest]
    | int n => simp [canonJoin, canonRaw, argRaw, canonArgs, hrest]
    | path p => simp [isTextOrInt] at ha
    | bytes s => simp [isTextOrInt] at ha
    | pathlike s => simp [isTextOrInt] at ha
    | none => simp [isTextOrInt] at ha
    | hashableOther => simp [isTextOrInt] at ha
    | unhashable => simp [isTextOrInt] at ha

/-- C5: canonicalization of text-or-integer constructor arguments splits
every string on the separator, discards empty and "." sub-tokens, keeps the
surviving tokens as string segments in order, and keeps integers as-is in
place; in particular `["a/b", "c"]` canonicalizes to `["a", "b", "c"]`. -/
theorem c5_canonicalize (args : List Arg) (sep : Char)
    (h : ∀ a ∈ args, isTextOrInt a = true) :
    parse_args args sep = Except.ok (canonArgs sep args)
    ∧ parse_args [Arg.str ['a', '/', 'b'], Arg.str ['c']] '/'
        = Except.ok [PathPart.str ['a'], PathPart.str ['b'], PathPart.str ['c']] := by
  constructor
  · have hno : NoOther (args.map argRaw) := by
      intro p hp
      obtain ⟨a, ha, hpa⟩ := List.mem_map.mp hp
      have hta := h a ha
      cases a with
      | str s => rw [← hpa]; simp [argRaw]
      | int n => rw [← hpa]; simp [argRaw]
      | path q => simp [isTextOrInt] at hta
      | bytes s => simp [isTextOrInt] at hta
      | pathlike s => simp [isTextOrInt] at hta
      | none => simp [isTextOrInt] at hta
      | hashableOther => simp [isTextOrInt] at hta
      | unhashable => simp [isTextOrInt] at hta
    rw [parse_args, collectParts_textint args h]
    show parse_parts (args.map argRaw) sep = Except.ok (canonArgs sep args)
    rw [parse_parts_ok _ _ hno, canonJoin_map_argRaw sep args h]
  · rfl

/-- Witness for C5: the concrete example itself. -/
theorem c5_canonicalize_witness :
    parse_args [Arg.str ['a', '/', 'b'], Arg.str ['c']] '/'
      = Except.ok (canonArgs '/' [Arg.str ['a', '/', 'b'], Arg.str ['c']]) :=
  (c5_canonicalize [Arg.str ['a', '/', 'b'], Arg.str ['c']] '/' (by decide)).1

/-- Classifier: an argument that is none of the accepted kinds (path, bytes,
`os.PathLike`, text, integer, `None`) — some other hashable value (e.g. a
tuple, a float) or an unhashable value (e.g. a list). -/
def isBadArg : Arg → Bool
  | .hashableOther => true
  | .unhashable => true
  | _ => false

theorem collectParts_unhashable (args : List Arg) (h : Arg.unhashable ∈ args) :
    collectParts args = Except.error PyErr.typeError := by
  induction args with
  | nil => simp at h
  | cons a rest ih =>
    rcases List.mem_cons.mp h with ha | ha
    · rw [← ha]; rfl
    · have herr := ih ha
      cases a <;> simp [collectParts, herr] <;> rfl

theorem collectParts_other (args : List Arg) (hu : Arg.unhashable ∉ args) :
    ∃ t, collectParts args = Except.ok t
      ∧ (Arg.hashableOther ∈ args → RawPart.other ∈ t) := by
  induction args with
  | nil => exact ⟨[], rfl, by simp⟩
  | cons a rest ih =>
    have hu2 : Arg.unhashable ∉ rest := fun hm => hu (List.mem_cons_of_mem a hm)
    obtain ⟨t, ht, hmem⟩ := ih hu2
    have step : ∀ b ∈ rest, True := fun _ _ => trivial
    cases a with
    | path p =>
      refine ⟨p.map toRaw ++ t, by rw [collectParts, ht]; rfl, fun hm => ?_⟩
      rcases List.mem_cons.mp hm with hx | hx
      · exact absurd hx.symm (by simp)
      · exact List.mem_append_right _ (hmem hx)
    | bytes s =>
      refine ⟨RawPart.str s :: t, by rw [collectParts, ht]; rfl, fun hm => ?_⟩
      rcases List.mem_cons.mp hm with hx | hx
      · exact absurd hx.symm (by simp)
      · exact List.mem_cons_of_mem _ (hmem hx)
    | pathlike s =>
      refine ⟨RawPart.str s :: t, by rw [collectParts, ht]; rfl, fun hm => ?_⟩
      rcases List.mem_cons.mp hm with hx | hx
      · exact absurd hx.symm (by simp)
      · exact List.mem_cons_of_mem _ (hmem hx)
    | str s =>
      refine ⟨RawPart.str s :: t, by rw [collectParts, ht]; rfl, fun hm => ?_⟩
      rcases List.mem_cons.mp hm with hx | hx
      · exact absurd hx.symm (by simp)
      · exact List.mem_cons_of_mem _ (hmem hx)
    | int n =>
      refine ⟨RawPart.int n :: t, by rw [collectParts, ht]; rfl, fun hm => ?_⟩
      rcases List.mem_cons.mp hm with hx | hx
      · exact absurd hx.symm (by simp)
      · exact List.mem_cons_of_mem _ (hmem hx)
    | none =>
      refine ⟨RawPart.none :: t, by rw [collectParts, ht]; rfl, fun hm => ?_⟩
      rcases List.mem_cons.mp hm with hx | hx
      · exact absurd hx.symm (by simp)
      · exact List.mem_cons_of_mem _ (hmem hx)
    | hashableOther =>
      exact ⟨RawPart.other :: t, by rw [collectParts, ht]; rfl,
        fun _ => List.mem_cons_self _ _⟩
    | unhashable => exact absurd (List.mem_cons_self _ _) hu

theorem parsePartsLoop_other (sep : Char) (l : List RawPart) (parsed : List PathPart)
    (h : RawPart.other ∈ l) :
    parsePartsLoop sep l parsed = Except.error PyErr.typeError := by
  induction l generalizing parsed with
  | nil => simp at h
  | cons p rest ih =>
    rcases List.mem_cons.mp h with hp | hp
    · rw [← hp]; rfl
    · cases p with
      | none => rw [parsePartsLoop]; exact ih parsed hp
      | int n => rw [parsePartsLoop]; exact ih _ hp
      | other => rfl
      | str s =>
        rw [parsePartsLoop]
        by_cases hsep : sep ∈ s
        · rw [if_pos hsep]; exact ih _ hp
        · rw [if_neg hsep]
          by_cases hkeep : keepToken s = true
          · rw [if_pos hkeep]; exact ih _ hp
          · rw [if_neg hkeep]; exact ih _ hp

theorem parse_parts_other (ps : List RawPart) (sep : Char)
    (h : RawPart.other ∈ ps) :
    parse_parts ps sep = Except.error PyErr.typeError := by
  rw [parse_parts, parsePartsLoop_other sep ps.reverse [] (List.mem_reverse.mpr h)]
  rfl

/-- C6 counterexample: `None` is not a path, bytes, text string or integer,
yet constructing a path from it succeeds — the argument is silently dropped
instead of raising `TypeError`; likewise an `os.PathLike` argument whose
`os.fspath` is "x" is accepted and contributes the segment "x". -/
theorem c6_counterexample :
    parse_args [Arg.none] '/' = Except.ok []
    ∧ (∀ e, parse_args [Arg.none] '/' ≠ Except.error e)
    ∧ parse_args [Arg.pathlike ['x']] '/' = Except.ok [PathPart.str ['x']]
    ∧ ∀ e, parse_args [Arg.pathlike ['x']] '/' ≠ Except.error e := by
  refine ⟨rfl, fun e h => ?_, rfl, fun e h => ?_⟩
  · rw [show parse_args [Arg.none] '/' = Except.ok [] from rfl] at h
    exact Except.noConfusion h
  · rw [show parse_args [Arg.pathlike ['x']] '/'
        = Except.ok [PathPart.str ['x']] from rfl] at h
    exact Except.noConfusion h

/-- C6 amended: every constructor argument that is not a path value, a byte
sequence, an `os.PathLike` object, a text string, an integer, or `None`
makes path construction fail with a TypeError-class error (`None` arguments
are accepted and silently dropped; `os.PathLike` arguments are accepted via
`os.fspath` as their path string). -/
theorem c6_amended_typeerror (args : List Arg) (sep : Char)
    (h : ∃ a ∈ args, isBadArg a = true) :
    parse_args args sep = Except.error PyErr.typeError := by
  obtain ⟨a, ha, hbad⟩ := h
  by_cases hu : Arg.unhashable ∈ args
  · rw [parse_args, collectParts_unhashable args hu]
    rfl
  · have hao : a = Arg.hashableOther := by
      cases a <;> simp [isBadArg] at hbad <;> try rfl
      · exact absurd ha hu
    obtain ⟨t, ht, hmem⟩ := collectParts_other args hu
    rw [parse_args, ht]
    show parse_parts t sep = Except.error PyErr.typeError
    exact parse_parts_other t sep (hmem (hao ▸ ha))

/-- Witness for C6 (amended): a tuple-like hashable argument raises
TypeError. -/
theorem c6_amended_typeerror_witness :
    parse_args [Arg.str ['a'], Arg.hashableOther] '/' = Except.error PyErr.typeError :=
  c6_amended_typeerror [Arg.str ['a'], Arg.hashableOther] '/'
    ⟨Arg.hashableOther, by simp, rfl⟩

/-- A canonical segment (as produced by the parser): a string token that
survives the filter and contains no separator, or an integer. -/
def CanonPart (sep : Char) : PathPart → Prop
  | .str s => keepToken s = true ∧ sep ∉ s
  | .int _ => True

theorem parsePartsLoop_canon (sep : Char) (l : List RawPart)
    (parsed res : List PathPart)
    (h : parsePartsLoop sep l parsed = Except.ok res) :
    ∀ x ∈ res, x ∈ parsed ∨ CanonPart sep x := by
  induction l generalizing parsed with
  | nil =>
    rw [parsePartsLoop] at h
    intro x hx
    exact Or.inl (by injection h with h2; rw [← h2] at hx; exact hx)
  | cons p rest ih =>
    intro x hx
    cases p with
    | none =>
      rw [parsePartsLoop] at h
      exact ih parsed h x hx
    | int n =>
      rw [parsePartsLoop] at h
      rcases ih _ h x hx with hmem | hcanon
      · rcases List.mem_append.mp hmem with hm | hm
        · exact Or.inl hm
        · right
          have : x = PathPart.int n := by simpa using hm
          rw [this]; trivial
      · exact Or.inr hcanon
    | other =>
      rw [parsePartsLoop] at h
      exact absurd h (by simp)
    | str s =>
      rw [parsePartsLoop] at h
      by_cases hsep : sep ∈ s
      · rw [if_pos hsep] at h
        rcases ih _ h x hx with hmem | hcanon
        · rcases List.mem_append.mp hmem with hm | hm
          · exact Or.inl hm
          · right
            obtain ⟨t, ht, hxt⟩ := List.mem_map.mp hm
            have htf := List.mem_filter.mp ht
            rw [← hxt]
            exact ⟨htf.2, splitOnSep_not_mem sep s t (List.mem_reverse.mp htf.1)⟩
        · exact Or.inr hcanon
      · rw [if_neg hsep] at h
        by_cases hkeep : keepToken s = true
        · rw [if_pos hkeep] at h
          rcases ih _ h x hx with hmem | hcanon
          · rcases List.mem_append.mp hmem with hm | hm
            · exact Or.inl hm
            · right
              have : x = PathPart.str s := by simpa using hm
              rw [this]; exact ⟨hkeep, hsep⟩
          · exact Or.inr hcanon
        · rw [if_neg hkeep] at h
          exact ih parsed h x hx

theorem parse_parts_canon (ps : List RawPart) (sep : Char) (out : List PathPart)
    (h : parse_parts ps sep = Except.ok out) :
    ∀ x ∈ out, CanonPart sep x := by
  rw [parse_parts] at h
  cases hloop : parsePartsLoop sep ps.reverse [] with
  | error e => rw [hloop] at h; exact absurd h (by simp [Except.map])
  | ok res =>
    rw [hloop] at h
    have hout : out = res.reverse := by
      simp [Except.map] at h
      exact h.symm
    intro x hx
    rw [hout] at hx
    rcases parsePartsLoop_canon sep ps.reverse [] res hloop x (List.mem_reverse.mp hx)
      with hm | hc
    · simp at hm
    · exact hc

theorem parse_args_canon (args : List Arg) (sep : Char) (out : List PathPart)
    (h : parse_args args sep = Except.ok out) :
    ∀ x ∈ out, CanonPart sep x := by
  rw [parse_args] at h
  cases hcol : collectParts args with
  | error e => rw [hcol] at h; exact absurd h (by simp [Bind.bind, Except.bind])
  | ok ps =>
    rw [hcol] at h
    exact parse_parts_canon ps sep out h

/-- A canonical segment turned back into a constructor argument (the
re-parsing `is_relative_to(*other_parts)` does inside `relative_to`). -/
def partToArg : PathPart → Arg
  | .str s => Arg.str s
  | .int n => Arg.int n

theorem collect_map_partToArg (out : List PathPart) :
    collectParts (out.map partToArg) = Except.ok (out.map toRaw) := by
  induction out with
  | nil => rfl
  | cons x rest ih =>
    cases x with
    | str s => simp only [List.map_cons, partToArg, collectParts, ih]; rfl
    | int n => simp only [List.map_cons, partToArg, collectParts, ih]; rfl

theorem canonJoin_canonical (sep : Char) (out : List PathPart)
    (h : ∀ x ∈ out, CanonPart sep x) :
    canonJoin sep (out.map toRaw) = out := by
  induction out with
  | nil => rfl
  | cons x rest ih =>
    have hx := h x (List.mem_cons_self x rest)
    have hrest := ih (fun y hy => h y (List.mem_cons_of_mem x hy))
    cases x with
    | int n => simp [canonJoin, toRaw, canonRaw, hrest]
    | str s =>
      obtain ⟨hkeep, hsep⟩ := hx
      simp only [List.map_cons, toRaw, canonJoin, canonRaw, hrest]
      rw [splitOnSep_no_sep sep s hsep]
      simp [List.filter_cons, hkeep]

theorem parse_args_roundtrip (sep : Char) (out : List PathPart)
    (h : ∀ x ∈ out, CanonPart sep x) :
    parse_args (out.map partToArg) sep = Except.ok out := by
  rw [parse_args, collect_map_partToArg]
  show parse_parts (out.map toRaw) sep = Except.ok out
  have hno : NoOther (out.map toRaw) := by
    intro p hp
    obtain ⟨x, hx, hpx⟩ := List.mem_map.mp hp
    cases x with
    | str s => rw [← hpx]; simp [toRaw]
    | int n => rw [← hpx]; simp [toRaw]
  rw [parse_parts_ok _ _ hno, canonJoin_canonical sep out h]

/-- The path value `BasePath`: canonical parts plus separator. -/
structure BPath where
  parts : List PathPart
  separator : Char
deriving DecidableEq, Hashable, Repr

/-- `BasePath.__eq__`: tuple comparison
`(self.separator, self.parts) == (other.separator, other.parts)`. -/
def pathEq (p q : BPath) : Bool :=
  decide ((p.separator, p.parts) = (q.separator, q.parts))

/-- `BasePath.__hash__`: `hash((self.separator, self.parts))`. -/
def pathHash (p : BPath) : UInt64 :=
  hash (p.separator, p.parts)

/-- C7: two path values are equal iff both separator and parts match exactly
(type-sensitively: the integer segment 0 differs from the string segment
"0"); equal paths hash equally; and equal parts with different separators
compare unequal. -/
theorem c7_eq_hash (p q : BPath) :
    (pathEq p q = true ↔ p.separator = q.separator ∧ p.parts = q.parts)
    ∧ (pathEq p q = true → pathHash p = pathHash q)
    ∧ (p.parts = q.parts → p.separator ≠ q.separator → pathEq p q = false)
    ∧ pathEq ⟨[PathPart.int 0], '/'⟩ ⟨[PathPart.str ['0']], '/'⟩ = false := by
  refine ⟨?_, ?_, ?_, by decide⟩
  · rw [pathEq]
    simp [Prod.ext_iff]
  · intro heq
    rw [pathEq] at heq
    have h2 := of_decide_eq_true heq
    rw [pathHash, pathHash, h2]
  · intro hparts hsep
    rw [pathEq]
    simp [Prod.ext_iff, hsep]

/-- Witness for C7: two equal concrete paths, and the same parts under two
separators. -/
theorem c7_eq_hash_witness :
    (pathEq ⟨[PathPart.str ['a']], '/'⟩ ⟨[PathPart.str ['a']], '/'⟩ = true ↔
      ('/' : Char) = '/' ∧ [PathPart.str ['a']] = [PathPart.str ['a']])
    ∧ (pathEq ⟨[PathPart.str ['a']], '/'⟩ ⟨[PathPart.str ['a']], '/'⟩ = true →
        pathHash ⟨[PathPart.str ['a']], '/'⟩ = pathHash ⟨[PathPart.str ['a']], '/'⟩)
    ∧ ([PathPart.str ['a']] = [PathPart.str ['a']] → ('/' : Char) ≠ '.' →
        pathEq ⟨[PathPart.str ['a']], '/'⟩ ⟨[PathPart.str ['a']], '.'⟩ = false)
    ∧ pathEq ⟨[PathPart.int 0], '/'⟩ ⟨[PathPart.str ['0']], '/'⟩ = false :=
  c7_eq_hash ⟨[PathPart.str ['a']], '/'⟩ ⟨[PathPart.str ['a']], '/'⟩ |>.imp id
    (fun h => ⟨h.1, fun h1 h2 =>
      (c7_eq_hash ⟨[PathPart.str ['a']], '/'⟩ ⟨[PathPart.str ['a']], '.'⟩).2.2.1 h1 h2,
      (c7_eq_hash ⟨[PathPart.str ['a']], '/'⟩ ⟨[PathPart.str ['a']], '.'⟩).2.2.2⟩)

/-- `BasePath.is_relative_to(*other)`: parse the arguments with this path's
separator; `False` when the canonicalized prefix is longer than this path's
parts, otherwise compare the leading slice. Parse errors propagate. -/
def is_relative_to (p : BPath) (other : List Arg) : Except PyErr Bool :=
  (parse_args other p.separator).map (fun op =>
    if p.parts.length < op.length then false
    else decide (p.parts.take op.length = op))

/-- `BasePath.relative_to(*other)`: parse the arguments, re-check via
`is_relative_to(*other_parts)` (which re-parses the canonical parts), raise
`ValueError` when not a prefix, otherwise clone with the prefix stripped. -/
def relative_to (p : BPath) (other : List Arg) : Except PyErr BPath :=
  match parse_args other p.separator with
  | Except.error e => Except.error e
  | Except.ok op =>
    match is_relative_to p (op.map partToArg) with
    | Except.error e => Except.error e
    | Except.ok b =>
      if b then Except.ok ⟨p.parts.drop op.length, p.separator⟩
      else Except.error PyErr.valueError

theorem is_relative_to_bool (p : BPath) (q : List Arg) (oq : List PathPart)
    (h : parse_args q p.separator = Except.ok oq) :
    is_relative_to p q = Except.ok
      (decide (oq.length ≤ p.parts.length ∧ p.parts.take oq.length = oq)) := by
  rw [is_relative_to, h]
  show Except.ok _ = Except.ok _
  congr 1
  show (if p.parts.length < oq.length then false
      else decide (p.parts.take oq.length = oq))
      = decide (oq.length ≤ p.parts.length ∧ p.parts.take oq.length = oq)
  by_cases hlt : p.parts.length < oq.length
  · rw [if_pos hlt]
    have hnot : ¬(oq.length ≤ p.parts.length ∧ p.parts.take oq.length = oq) := by
      intro ⟨h1, _⟩; omega
    simp [hnot]
  · rw [if_neg hlt]
    have hle : oq.length ≤ p.parts.length := by omega
    by_cases heq : p.parts.take oq.length = oq
    · simp [heq, hle]
    · simp [heq]

/-- C8: `relative_to(q)` raises ValueError exactly when the canonicalized
segments of `q` are not a prefix of the path's segments (equivalently, when
`is_relative_to(q)` is false), and otherwise returns the path with that
prefix removed. -/
theorem c8_relative_to (p : BPath) (q : List Arg) (oq : List PathPart)
    (h : parse_args q p.separator = Except.ok oq) :
    (relative_to p q = Except.error PyErr.valueError ↔
      ¬(oq.length ≤ p.parts.length ∧ p.parts.take oq.length = oq))
    ∧ ((oq.length ≤ p.parts.length ∧ p.parts.take oq.length = oq) →
        relative_to p q = Except.ok ⟨p.parts.drop oq.length, p.separator⟩)
    ∧ is_relative_to p q = Except.ok
        (decide (oq.length ≤ p.parts.length ∧ p.parts.take oq.length = oq)) := by
  have hcanon := parse_args_canon q p.separator oq h
  have hrt : parse_args (oq.map partToArg) p.separator = Except.ok oq :=
    parse_args_roundtrip p.separator oq hcanon
  have hisl := is_relative_to_bool p (oq.map partToArg) oq hrt
  have hred : relative_to p q =
      if decide (oq.length ≤ p.parts.length ∧ p.parts.take oq.length = oq)
      then Except.ok ⟨p.parts.drop oq.length, p.separator⟩
      else Except.error PyErr.valueError := by
    simp only [relative_to, h, hisl]
  refine ⟨?_, ?_, is_relative_to_bool p q oq h⟩
  · rw [hred]
    by_cases hcond : oq.length ≤ p.parts.length ∧ p.parts.take oq.length = oq
    · simp [hcond]
    · simp [hcond]
  · intro hcond
    rw [hred]
    simp [hcond]

/-- Witness for C8: on the path `a/b` (separator `/`), `relative_to(["a"])`
strips the prefix, `relative_to(["x"])` raises ValueError. -/
theorem c8_relative_to_witness :
    (relative_to ⟨[PathPart.str ['a'], PathPart.str ['b']], '/'⟩ [Arg.str ['a']]
      = Except.ok ⟨[PathPart.str ['b']], '/'⟩)
    ∧ (relative_to ⟨[PathPart.str ['a'], PathPart.str ['b']], '/'⟩ [Arg.str ['x']]
      = Except.error PyErr.valueError) :=
  ⟨(c8_relative_to ⟨[PathPart.str ['a'], PathPart.str ['b']], '/'⟩
      [Arg.str ['a']] [PathPart.str ['a']] rfl).2.1 (by decide),
    (c8_relative_to ⟨[PathPart.str ['a'], PathPart.str ['b']], '/'⟩
      [Arg.str ['x']] [PathPart.str ['x']] rfl).1.mpr (by decide)⟩

/-- `BasePath.parent`: drop the last part; the parent of an empty path is
the path itself. -/
def parent (p : BPath) : BPath :=
  if p.parts = [] then p else ⟨p.parts.dropLast, p.separator⟩

/-- `BasePath.parents`: the ancestor chain
`(parts[:-1], parts[:-2], ..., parts[:0])`, root-most last. -/
def parents (p : BPath) : List BPath :=
  (List.range p.parts.length).map
    (fun i => ⟨p.parts.take (p.parts.length - (i + 1)), p.separator⟩)

/-- C9: the parents chain has exactly one entry per segment of the path,
its last element (root-most) is the empty path, and the parent of a path
with no segments is that path itself. -/
theorem c9_parents (p : BPath) :
    (parents p).length = p.parts.length
    ∧ (p.parts ≠ [] → (parents p).getLast? = some ⟨[], p.separator⟩)
    ∧ (p.parts = [] → parent p = p) := by
  refine ⟨by simp [parents], ?_, fun hnil => by rw [parent, if_pos hnil]⟩
  intro hne
  obtain ⟨k, hk⟩ : ∃ k, p.parts.length = k + 1 := by
    cases hp : p.parts with
    | nil => exact absurd hp hne
    | cons a l => exact ⟨l.length, by simp⟩
  rw [parents, hk, List.range_succ, List.map_append]
  simp [List.getLast?_concat]

/-- Witness for C9: the one-segment path `a` has one parent, the empty path;
the empty path is its own parent. -/
theorem c9_parents_witness :
    (parents ⟨[PathPart.str ['a']], '/'⟩).length = 1
    ∧ (parents ⟨[PathPart.str ['a']], '/'⟩).getLast? = some ⟨[], '/'⟩
    ∧ parent ⟨[], '/'⟩ = ⟨[], '/'⟩ :=
  ⟨(c9_parents ⟨[PathPart.str ['a']], '/'⟩).1,
    (c9_parents ⟨[PathPart.str ['a']], '/'⟩).2.1 (by simp),
    (c9_parents ⟨[], '/'⟩).2.2 rfl⟩

end Pathable
